import Mathlib

set_option maxRecDepth 4000

namespace Multiversion

/-- Characters of a Rust string slice. -/
abbrev Str := List Char

/-- Mirrors Rust's `str::split(sep)`: cuts at every separator character and keeps
empty segments, so the result is never empty. -/
def split (sep : Char) : Str → List Str
  | [] => [[]]
  | c :: rest =>
    match split sep rest with
    | [] => [[]]
    | h :: t => if c = sep then [] :: h :: t else (c :: h) :: t

/-- Mirrors Rust's slice `join` for a one-character separator. -/
def joinSep (sep : Char) : List Str → Str
  | [] => []
  | [x] => x
  | x :: y :: rest => x ++ sep :: joinSep sep (y :: rest)

/-- Helper for adjacent deduplication: drops elements equal to the previously kept one. -/
def dedupLoop [DecidableEq α] (prev : α) : List α → List α
  | [] => []
  | y :: ys => if y = prev then dedupLoop prev ys else y :: dedupLoop y ys

/-- Mirrors Rust's `Vec::dedup`: removes consecutive duplicates, keeping the first of a run. -/
def dedupAdj [DecidableEq α] : List α → List α
  | [] => []
  | x :: xs => x :: dedupLoop x xs

/-- The closed architecture enumeration from `target.rs`. -/
inductive Architecture
  | X86
  | X86_64
  | Arm
  | Aarch64
  | Mips
  | Mips64
  | PowerPC
  | PowerPC64
deriving DecidableEq, Fintype

instance : Inhabited Architecture := ⟨Architecture.X86⟩

/-- Mirrors `Architecture::as_str`. -/
def Architecture.asStr : Architecture → Str
  | .X86 => "x86".data
  | .X86_64 => "x86_64".data
  | .Arm => "arm".data
  | .Aarch64 => "aarch64".data
  | .Mips => "mips".data
  | .Mips64 => "mips64".data
  | .PowerPC => "powerpc".data
  | .PowerPC64 => "powerpc64".data

/-- Mirrors `Architecture::new`: maps a name to an architecture, failing on any
name outside the closed enumeration. -/
def Architecture.new (name : Str) : Option Architecture :=
  if name = "x86".data then some .X86
  else if name = "x86_64".data then some .X86_64
  else if name = "arm".data then some .Arm
  else if name = "aarch64".data then some .Aarch64
  else if name = "mips".data then some .Mips
  else if name = "mips64".data then some .Mips64
  else if name = "powerpc".data then some .PowerPC
  else if name = "powerpc64".data then some .PowerPC64
  else none

/-- The `Target` struct from `target.rs`. The `span` field models the
`proc_macro2::Span` provenance value carried alongside the parsed data. -/
structure Target where
  architectures : List Architecture
  features : List Str
  span : Nat
deriving DecidableEq

/-- Mirrors `impl PartialEq for Target`: compares the architecture and feature
vectors and ignores the span. -/
def targetEq (a b : Target) : Bool :=
  decide (a.architectures = b.architectures) && decide (a.features = b.features)

/-- Maps `Architecture::new` across the elements of a bracketed list, failing if
any element fails (the `collect::<Result<Vec<_>>>` in `Target::parse`). -/
def parseArchList : List Str → Option (List Architecture)
  | [] => some []
  | x :: xs =>
    match Architecture.new x, parseArchList xs with
    | some a, some rest => some (a :: rest)
    | _, _ => none

/-- Parses the architecture specifier of `Target::parse`: either a bracketed
pipe-separated list or a single architecture name. -/
def parseArches (archSpec : Str) : Option (List Architecture) :=
  if archSpec.head? = some '[' ∧ archSpec.getLast? = some ']' then
    parseArchList (split '|' ((archSpec.drop 1).dropLast))
  else
    (Architecture.new archSpec).map (fun a => [a])

/-- Checks every feature segment is non-empty, as `Target::parse` does; a successful
result returns the segments unchanged. -/
def parseFeatures : List Str → Option (List Str)
  | [] => some []
  | f :: fs =>
    if f = [] then none
    else (parseFeatures fs).map (fun rest => f :: rest)

/-- The `sort_unstable` followed by `dedup` canonicalization of the feature list. -/
def canonicalFeatures (fs : List Str) : List Str :=
  dedupAdj (List.insertionSort (· ≤ ·) fs)

/-- Mirrors `Target::parse` over the characters of the specification string;
`span` is the span of the literal being parsed. -/
def Target.parse (s : Str) (span : Nat) : Option Target :=
  match split '+' s with
  | [] => none
  | archSpec :: featureSegs =>
    if archSpec = [] then none
    else
      match parseArches archSpec, parseFeatures featureSegs with
      | some arches, some feats => some ⟨arches, canonicalFeatures feats, span⟩
      | _, _ => none

/-- Mirrors `Target::target_string`: the canonical re-serialization, carrying the
original span. -/
def Target.targetString (t : Target) : Str :=
  let arches :=
    if 1 < t.architectures.length then
      '[' :: (joinSep '|' (t.architectures.map Architecture.asStr) ++ [']'])
    else
      (t.architectures.headI).asStr
  if t.features = [] then arches
  else arches ++ '+' :: joinSep '+' t.features

/-- Mirrors `Target::features_string`: features joined by underscores, dots removed. -/
def Target.featuresString (t : Target) : Str :=
  (joinSep '_' t.features).filter (fun c => c ≠ '.')

/-- Mirrors `Target::has_features_specified`. -/
def Target.hasFeaturesSpecified (t : Target) : Bool :=
  decide (t.features ≠ [])

/-- A declared specialization from `dispatcher.rs`: its target plus an identifier
standing for the implementation body (the `Block` is irrelevant to selection). -/
structure Specialization where
  target : Target
  blockId : Nat
deriving DecidableEq

/-- Mirrors `feature_fn_name`: the symbol a specialization (or the global default)
is emitted under. -/
def featureFnName (ident : Str) (target : Option Target) : Str :=
  match target with
  | some t =>
    if t.hasFeaturesSpecified then
      ident ++ '_' :: (t.featuresString ++ '_' :: "version".data)
    else ident ++ "_default_version".data
  | none => ident ++ "_default_version".data

/-- A feature detector: answers whether a named feature is available on the
running architecture (the per-architecture detector macros, or the build-time
`cfg!` answers in static mode). -/
abbrev Detector := Architecture → Str → Bool

/-- The generated `features_detected` expression, evaluated on the running
architecture: `true` for an empty feature set, otherwise the conjunction of the
detector over all features. -/
def Target.featuresDetected (t : Target) (a : Architecture) (det : Detector) : Bool :=
  if t.features = [] then true
  else t.features.all (fun f => det a f)

/-- The generated `#[cfg(any(target_arch = ...))]` gate of `Target::target_arch`,
evaluated on the running architecture. -/
def Target.archActive (t : Target) (a : Architecture) : Bool :=
  decide (a ∈ t.architectures)

/-- The outcome of dispatch: a winning specialization (by its index in the
declared table) or the global default implementation. -/
inductive ResolvedChoice
  | spec (i : Nat)
  | defaultImpl
deriving DecidableEq

/-- The indexed feature-bearing entries in declaration order: exactly the guards the
dispatcher emits (its `filter_map` keeps only targets with features specified). -/
def guardList (specs : List Specialization) : List (Nat × Specialization) :=
  specs.enum.filter (fun p => p.2.target.hasFeaturesSpecified)

/-- One emitted guard: the architecture gate together with feature detection. -/
def guardPasses (a : Architecture) (det : Detector) (sp : Specialization) : Bool :=
  sp.target.archActive a && sp.target.featuresDetected a det

/-- Resolution of the `_default_version` symbol on the compiled architecture: an
empty-feature specialization gated to that architecture takes the name over
(`feature_fn_name` gives it the default name and `cfg_if_not_defaulted` removes
the global default there); otherwise the global default bears the name. -/
def resolveDefaultSymbol (specs : List Specialization) (a : Architecture) : ResolvedChoice :=
  match specs.enum.find?
      (fun p => !p.2.target.hasFeaturesSpecified && p.2.target.archActive a) with
  | some p => .spec p.1
  | none => .defaultImpl

/-- The body of the generated `__get_fn` of the cached dispatcher: the first
guard that passes, otherwise fall through to the default symbol. -/
def getFnChain (specs : List Specialization) (a : Architecture) (det : Detector) :
    Option Nat :=
  ((guardList specs).find? (fun p => guardPasses a det p.2)).map (fun p => p.1)

/-- Selection performed by the cached (atomic function pointer) dispatcher. -/
def selectCached (specs : List Specialization) (a : Architecture) (det : Detector) :
    ResolvedChoice :=
  match getFnChain specs a det with
  | some i => .spec i
  | none => resolveDefaultSymbol specs a

/-- The per-call branch chain of the fallback dispatcher: walk the emitted guards
in order, returning at the first that passes. -/
def branchWalk (a : Architecture) (det : Detector) :
    List (Nat × Specialization) → Option Nat
  | [] => none
  | p :: rest => if guardPasses a det p.2 then some p.1 else branchWalk a det rest

/-- Selection performed by the per-call branch chain (the else branch of
`dispatcher_fn`). -/
def selectChain (specs : List Specialization) (a : Architecture) (det : Detector) :
    ResolvedChoice :=
  match branchWalk a det (guardList specs) with
  | some i => .spec i
  | none => resolveDefaultSymbol specs a

/-- The selection semantics shared by both dispatch strategies. -/
def select (specs : List Specialization) (a : Architecture) (det : Detector) :
    ResolvedChoice :=
  selectCached specs a det

/-- Structural shape of a call site, as tested at the top of `dispatcher_fn`. -/
structure SigShape where
  runtimeDispatch : Bool
  hasFnParams : Bool
  isAsync : Bool
  hasImplTrait : Bool
  associated : Bool
deriving DecidableEq, Fintype

/-- The condition under which the atomic-pointer dispatcher is generated. -/
def usesCachedDispatcher (s : SigShape) : Bool :=
  s.runtimeDispatch && !s.hasFnParams && !s.isAsync && !s.hasImplTrait && !s.associated

/-- The branch chain is generated exactly when the cached dispatcher is not. -/
def usesBranchChain (s : SigShape) : Bool :=
  !(usesCachedDispatcher s)

/-- A `cfg` gate as emitted on a generated function. -/
inductive Gate
  | anyArch (arches : List Architecture)
  | notAnyArch (arches : List Architecture)
deriving DecidableEq

/-- Whether a gate admits the compiled architecture. -/
def gateActive (a : Architecture) : Gate → Bool
  | .anyArch l => decide (a ∈ l)
  | .notAnyArch l => !(decide (a ∈ l))

/-- An emitted item: its symbol name plus its architecture gate. -/
structure EmittedFn where
  name : Str
  gate : Gate
deriving DecidableEq

/-- The architecture list collected by `cfg_if_not_defaulted`: every architecture
of every empty-feature specialization, in declaration order. -/
def defaultedArches (specs : List Specialization) : List Architecture :=
  ((specs.filter (fun sp => !sp.target.hasFeaturesSpecified)).map
    (fun sp => sp.target.architectures)).flatten

/-- The functions emitted by `feature_fns`: one per specialization (gated to its
architectures via the target attribute) followed by the global default (gated by
`cfg_if_not_defaulted`). -/
def emittedFns (ident : Str) (specs : List Specialization) : List EmittedFn :=
  specs.map
    (fun sp => ⟨featureFnName ident (some sp.target), .anyArch sp.target.architectures⟩)
    ++ [⟨featureFnName ident none, .notAnyArch (defaultedArches specs)⟩]

/-- The emitted bearers of the default symbol: the functions produced for
empty-feature specializations together with the global default function. -/
def defaultNameBearers (ident : Str) (specs : List Specialization) : List EmittedFn :=
  (specs.filter (fun sp => !sp.target.hasFeaturesSpecified)).map
    (fun sp => ⟨featureFnName ident (some sp.target), .anyArch sp.target.architectures⟩)
    ++ [⟨featureFnName ident none, .notAnyArch (defaultedArches specs)⟩]

/-- Selection exactly as claim C1 words it: iterate all specializations in
declaration order and return the first that matches, where a feature-bearing
entry matches on architecture membership plus detected features and an
empty-feature entry matches on architecture membership alone. -/
def selectClaimOrder (specs : List Specialization) (a : Architecture) (det : Detector) :
    ResolvedChoice :=
  match specs.enum.find?
      (fun p =>
        if p.2.target.hasFeaturesSpecified then guardPasses a det p.2
        else p.2.target.archActive a) with
  | some p => .spec p.1
  | none => .defaultImpl

/-- Amended selection policy: feature-bearing entries are tried first, in
declaration order; if none matches, the earliest empty-feature entry listing the
architecture stands in for the default; only then is the global default used. -/
def selectAmendedOrder (specs : List Specialization) (a : Architecture) (det : Detector) :
    ResolvedChoice :=
  match specs.enum.find?
      (fun p => p.2.target.hasFeaturesSpecified && guardPasses a det p.2) with
  | some p => .spec p.1
  | none =>
    match specs.enum.find?
        (fun p => !p.2.target.hasFeaturesSpecified && p.2.target.archActive a) with
    | some p => .spec p.1
    | none => .defaultImpl

/-- The interior of a bracketed architecture list, split at the pipes. -/
def bracketInterior (s : Str) : List Str :=
  split '|' ((s.drop 1).dropLast)

/-- The architecture names a specifier denotes, per the grammar of the spec. -/
def archNamesOf (archSpec : Str) : List Str :=
  if archSpec.head? = some '[' ∧ archSpec.getLast? = some ']' then bracketInterior archSpec
  else [archSpec]

/-- The spec's characterization of a malformed target string: empty architecture
part, unterminated bracket, empty bracketed element, an architecture name outside
the closed enumeration, or an empty feature segment. -/
def specMalformed (s : Str) : Bool :=
  match split '+' s with
  | [] => true
  | archSpec :: featureSegs =>
    decide (archSpec = [])
    || (decide (archSpec.head? = some '[') && !decide (archSpec.getLast? = some ']'))
    || (decide (archSpec.head? = some '[' ∧ archSpec.getLast? = some ']')
        && (bracketInterior archSpec).any (fun e => decide (e = [])))
    || (archNamesOf archSpec).any (fun n => (Architecture.new n).isNone)
    || featureSegs.any (fun f => decide (f = []))

/-- Phase of one calling thread at a cached-dispatch call site: it has not yet
loaded the slot, it loaded the sentinel and will run the selector and store, or
it finished by invoking an implementation. -/
inductive Phase
  | start
  | willResolve
  | finished (c : ResolvedChoice)
deriving DecidableEq

/-- Global state of one cached call site: the atomic slot (`none` is the
sentinel, i.e. the resolver address) plus every caller's phase. -/
structure CacheState where
  slot : Option ResolvedChoice
  threads : List Phase
deriving DecidableEq

/-- Interleaved small-step semantics of the cached dispatcher: new callers may
arrive at any time; a caller that loads the sentinel becomes a resolver; a caller
that loads a resolved value invokes it; a resolver runs the (pure) selector,
stores the result and invokes it. -/
inductive CacheStep (specs : List Specialization) (a : Architecture) (det : Detector) :
    CacheState → CacheState → Prop
  | spawn (s : CacheState) :
      CacheStep specs a det s ⟨s.slot, s.threads ++ [.start]⟩
  | loadSentinel (s : CacheState) (i : Nat) (h : s.threads.get? i = some .start)
      (hs : s.slot = none) :
      CacheStep specs a det s ⟨s.slot, s.threads.set i .willResolve⟩
  | loadResolved (s : CacheState) (i : Nat) (c : ResolvedChoice)
      (h : s.threads.get? i = some .start) (hs : s.slot = some c) :
      CacheStep specs a det s ⟨s.slot, s.threads.set i (.finished c)⟩
  | resolveStore (s : CacheState) (i : Nat) (h : s.threads.get? i = some .willResolve) :
      CacheStep specs a det s
        ⟨some (select specs a det), s.threads.set i (.finished (select specs a det))⟩

/-- Reachability in the cached-dispatch transition system. -/
def CacheReach (specs : List Specialization) (a : Architecture) (det : Detector) :
    CacheState → CacheState → Prop :=
  Relation.ReflTransGen (CacheStep specs a det)

/-- A run of the emitted guard chain over a list of remaining guards: either no
guard passes, or the walk returns at the first passing guard. -/
inductive ChainEval (a : Architecture) (det : Detector) :
    List (Nat × Specialization) → Option Nat → Prop
  | nil : ChainEval a det [] none
  | hit (p : Nat × Specialization) (rest : List (Nat × Specialization))
      (h : guardPasses a det p.2 = true) :
      ChainEval a det (p :: rest) (some p.1)
  | miss (p : Nat × Specialization) (rest : List (Nat × Specialization)) (r : Option Nat)
      (h : guardPasses a det p.2 = false) (hr : ChainEval a det rest r) :
      ChainEval a det (p :: rest) r

/-- A complete run of the dispatcher's selection: the guard chain over the
emitted guards followed, on fall-through, by default symbol resolution. -/
inductive DispatchRun (specs : List Specialization) (a : Architecture) (det : Detector) :
    ResolvedChoice → Prop
  | hit (i : Nat) (h : ChainEval a det (guardList specs) (some i)) :
      DispatchRun specs a det (.spec i)
  | fallback (h : ChainEval a det (guardList specs) none) :
      DispatchRun specs a det (resolveDefaultSymbol specs a)


/-! ### Lemmas about the string machinery -/

theorem split_ne_nil (sep : Char) : ∀ s : Str, split sep s ≠ []
  | [] => by simp [split]
  | c :: rest => by
    unfold split
    cases h : split sep rest with
    | nil => simp
    | cons x t =>
      by_cases hc : c = sep <;> simp [hc]

theorem split_sepFree {sep : Char} : ∀ {p : Str}, sep ∉ p → split sep p = [p]
  | [], _ => rfl
  | c :: rest, h => by
    have hc : c ≠ sep := fun he => h (he ▸ List.mem_cons_self c rest)
    have hr : split sep rest = [rest] := split_sepFree (fun hm => h (List.mem_cons_of_mem c hm))
    unfold split
    rw [hr]
    simp [hc]

theorem split_append_cons {sep : Char} {s : Str} :
    ∀ {p : Str}, sep ∉ p → split sep (p ++ sep :: s) = p :: split sep s
  | [], _ => by
    show split sep (sep :: s) = [] :: split sep s
    conv_lhs => rw [split]
    cases h : split sep s with
    | nil => exact absurd h (split_ne_nil sep s)
    | cons x t => simp
  | c :: rest, h => by
    have hc : c ≠ sep := fun he => h (he ▸ List.mem_cons_self c rest)
    have hr := split_append_cons (s := s) (p := rest)
      (fun hm => h (List.mem_cons_of_mem c hm))
    show split sep (c :: (rest ++ sep :: s)) = (c :: rest) :: split sep s
    conv_lhs => rw [split]
    rw [hr]
    simp [hc]

theorem mem_split {sep : Char} : ∀ {s : Str} {q : Str}, q ∈ split sep s → sep ∉ q
  | [], q, hq => by
    simp [split] at hq
    simp [hq]
  | c :: rest, q, hq => by
    revert hq
    unfold split
    cases h : split sep rest with
    | nil => exact absurd h (split_ne_nil sep rest)
    | cons x t =>
      by_cases hc : c = sep <;> simp only [hc, if_true, if_false, reduceIte]
      · intro hq
        rcases List.mem_cons.mp hq with h1 | h1
        · simp [h1]
        · exact mem_split (s := rest) (h ▸ h1)
      · intro hq
        rcases List.mem_cons.mp hq with h1 | h1
        · subst h1
          intro hm
          rcases List.mem_cons.mp hm with h2 | h2
          · exact hc h2.symm
          · exact mem_split (s := rest) (h ▸ List.mem_cons_self x t) h2
        · exact mem_split (s := rest) (h ▸ List.mem_cons_of_mem x h1)

theorem joinSep_cons {sep : Char} {x : Str} : ∀ {ys : List Str}, ys ≠ [] →
    joinSep sep (x :: ys) = x ++ sep :: joinSep sep ys
  | [], h => absurd rfl h
  | _ :: _, _ => rfl

theorem split_joinSep {sep : Char} :
    ∀ {ps : List Str}, ps ≠ [] → (∀ p ∈ ps, sep ∉ p) →
      split sep (joinSep sep ps) = ps
  | [], h, _ => absurd rfl h
  | [x], _, hall => by
    show split sep x = [x]
    exact split_sepFree (hall x (List.mem_cons_self x []))
  | x :: y :: rest, _, hall => by
    rw [joinSep_cons (List.cons_ne_nil y rest)]
    rw [split_append_cons (hall x (List.mem_cons_self x (y :: rest)))]
    rw [split_joinSep (List.cons_ne_nil y rest)
      (fun p hp => hall p (List.mem_cons_of_mem x hp))]

theorem mem_joinSep {sep : Char} {c : Char} :
    ∀ {ps : List Str}, c ∈ joinSep sep ps → c = sep ∨ ∃ p ∈ ps, c ∈ p
  | [], h => by simp [joinSep] at h
  | [x], h => Or.inr ⟨x, List.mem_cons_self x [], h⟩
  | x :: y :: rest, h => by
    rw [joinSep_cons (List.cons_ne_nil y rest)] at h
    rcases List.mem_append.mp h with h1 | h1
    · exact Or.inr ⟨x, List.mem_cons_self x (y :: rest), h1⟩
    · rcases List.mem_cons.mp h1 with h2 | h2
      · exact Or.inl h2
      · rcases mem_joinSep h2 with h3 | ⟨p, hp, hcp⟩
        · exact Or.inl h3
        · exact Or.inr ⟨p, List.mem_cons_of_mem x hp, hcp⟩

theorem dedupLoop_sublist [DecidableEq α] : ∀ (l : List α) (p : α), List.Sublist (dedupLoop p l) l
  | [], _ => List.Sublist.refl []
  | y :: ys, p => by
    unfold dedupLoop
    by_cases h : y = p
    · simp only [h, if_true, reduceIte]
      exact (dedupLoop_sublist ys p).cons p
    · simp only [h, if_false, reduceIte]
      exact (dedupLoop_sublist ys y).cons₂ y

theorem dedupAdj_sublist [DecidableEq α] : ∀ (l : List α), List.Sublist (dedupAdj l) l
  | [] => List.Sublist.refl []
  | x :: xs => (dedupLoop_sublist xs x).cons₂ x

theorem chain_ne_dedupLoop [DecidableEq α] :
    ∀ (l : List α) (p : α), List.Chain' (fun a b => a ≠ b) (p :: dedupLoop p l)
  | [], p => List.chain'_singleton p
  | y :: ys, p => by
    unfold dedupLoop
    by_cases h : y = p
    · simp only [h, if_true, reduceIte]
      exact chain_ne_dedupLoop ys p
    · simp only [h, if_false, reduceIte]
      exact (List.chain'_cons).mpr ⟨fun he => h he.symm, chain_ne_dedupLoop ys y⟩

theorem chain_ne_dedupAdj [DecidableEq α] (l : List α) :
    List.Chain' (fun a b => a ≠ b) (dedupAdj l) := by
  cases l with
  | nil => exact List.chain'_nil
  | cons x xs => exact chain_ne_dedupLoop xs x

theorem dedupLoop_eq_self [DecidableEq α] :
    ∀ {l : List α} {p : α}, List.Chain' (fun a b => a ≠ b) (p :: l) → dedupLoop p l = l
  | [], _, _ => rfl
  | y :: ys, p, h => by
    rcases (List.chain'_cons).mp h with ⟨hpy, htail⟩
    unfold dedupLoop
    have : ¬(y = p) := fun he => hpy he.symm
    simp only [this, if_false, reduceIte]
    rw [dedupLoop_eq_self htail]

theorem dedupAdj_eq_self [DecidableEq α] {l : List α}
    (h : List.Chain' (fun a b => a ≠ b) l) : dedupAdj l = l := by
  cases l with
  | nil => rfl
  | cons x xs =>
    show x :: dedupLoop x xs = x :: xs
    rw [dedupLoop_eq_self h]

theorem mem_dedupAdj [DecidableEq α] {l : List α} {x : α} (h : x ∈ dedupAdj l) : x ∈ l :=
  (dedupAdj_sublist l).mem h

theorem sorted_canonicalFeatures (fs : List Str) :
    List.Sorted (· ≤ ·) (canonicalFeatures fs) :=
  (List.sorted_insertionSort (· ≤ ·) fs).sublist
    (dedupAdj_sublist (List.insertionSort (· ≤ ·) fs))

theorem chain_ne_canonicalFeatures (fs : List Str) :
    List.Chain' (fun a b => a ≠ b) (canonicalFeatures fs) :=
  chain_ne_dedupAdj (List.insertionSort (· ≤ ·) fs)

theorem mem_canonicalFeatures {fs : List Str} {x : Str}
    (h : x ∈ canonicalFeatures fs) : x ∈ fs :=
  (List.perm_insertionSort (· ≤ ·) fs).mem_iff.mp (mem_dedupAdj h)

theorem canonicalFeatures_eq_self {l : List Str}
    (hs : List.Sorted (· ≤ ·) l) (hne : List.Chain' (fun a b => a ≠ b) l) :
    canonicalFeatures l = l := by
  unfold canonicalFeatures
  rw [List.Sorted.insertionSort_eq hs]
  exact dedupAdj_eq_self hne

theorem canonicalFeatures_perm {fs gs : List Str} (h : fs.Perm gs) :
    canonicalFeatures fs = canonicalFeatures gs := by
  unfold canonicalFeatures
  congr 1
  exact List.eq_of_perm_of_sorted
    (((List.perm_insertionSort (· ≤ ·) fs).trans h).trans
      (List.perm_insertionSort (· ≤ ·) gs).symm)
    (List.sorted_insertionSort (· ≤ ·) fs)
    (List.sorted_insertionSort (· ≤ ·) gs)

theorem pairwise_lt_of_sorted_chain_ne {l : List Str}
    (hs : List.Sorted (· ≤ ·) l) (hne : List.Chain' (fun a b => a ≠ b) l) :
    List.Pairwise (· < ·) l := by
  induction l with
  | nil => exact List.Pairwise.nil
  | cons x xs ih =>
    have hs' : List.Sorted (· ≤ ·) xs := hs.of_cons
    have hxall : ∀ y ∈ xs, x ≤ y := List.rel_of_sorted_cons hs
    cases xs with
    | nil => simp
    | cons y ys =>
      rcases (List.chain'_cons).mp hne with ⟨hxy, htail⟩
      have hp : List.Pairwise (· < ·) (y :: ys) := ih hs' htail
      refine List.Pairwise.cons ?_ hp
      intro z hz
      rcases List.mem_cons.mp hz with h1 | h1
      · subst h1
        exact lt_of_le_of_ne (hxall z (List.mem_cons_self z ys)) hxy
      · have hxy' : x < y :=
          lt_of_le_of_ne (hxall y (List.mem_cons_self y ys)) hxy
        exact lt_trans hxy' (List.rel_of_pairwise_cons hp h1)

theorem nodup_canonicalFeatures (fs : List Str) : (canonicalFeatures fs).Nodup :=
  (pairwise_lt_of_sorted_chain_ne (sorted_canonicalFeatures fs)
    (chain_ne_canonicalFeatures fs)).imp ne_of_lt

theorem Architecture.new_asStr (a : Architecture) : Architecture.new a.asStr = some a := by
  cases a <;> rfl

theorem Architecture.eq_asStr_of_new {s : Str} {a : Architecture}
    (h : Architecture.new s = some a) : s = a.asStr := by
  unfold Architecture.new at h
  split_ifs at h <;>
    first
    | exact Option.noConfusion h
    | (injection h with he; subst he; assumption)

theorem asStr_facts (a : Architecture) :
    a.asStr ≠ [] ∧ a.asStr.head? ≠ some '[' ∧ '+' ∉ a.asStr ∧ '|' ∉ a.asStr := by
  revert a
  decide

theorem parseArchList_map_asStr : ∀ (l : List Architecture),
    parseArchList (l.map Architecture.asStr) = some l
  | [] => rfl
  | a :: rest => by
    show parseArchList (a.asStr :: rest.map Architecture.asStr) = some (a :: rest)
    unfold parseArchList
    rw [Architecture.new_asStr, parseArchList_map_asStr rest]

theorem parseArchList_length : ∀ {ns : List Str} {l : List Architecture},
    parseArchList ns = some l → l.length = ns.length
  | [], l, h => by
    simp [parseArchList] at h
    simp [← h]
  | n :: ns, l, h => by
    revert h
    unfold parseArchList
    cases hn : Architecture.new n with
    | none => intro h; exact absurd h (by simp)
    | some a =>
      cases hl : parseArchList ns with
      | none => intro h; exact absurd h (by simp)
      | some rest =>
        intro h
        injection h with he
        subst he
        simp [parseArchList_length hl]

theorem parseArchList_none_iff : ∀ {ns : List Str},
    parseArchList ns = none ↔ ∃ n ∈ ns, Architecture.new n = none
  | [] => by simp [parseArchList]
  | n :: ns => by
    unfold parseArchList
    cases hn : Architecture.new n with
    | none => simp [hn]
    | some a =>
      cases hl : parseArchList ns with
      | none =>
        have := parseArchList_none_iff.mp hl
        simp only [List.exists_mem_cons_iff, hn]
        simp [this]
      | some rest =>
        have hnot : ¬∃ x ∈ ns, Architecture.new x = none := by
          rw [← parseArchList_none_iff]
          simp [hl]
        simp only [List.exists_mem_cons_iff, hn]
        simp [hnot]

theorem parseFeatures_eq_some : ∀ {fs gs : List Str}, parseFeatures fs = some gs →
    gs = fs ∧ ∀ f ∈ fs, f ≠ []
  | [], gs, h => by
    simp [parseFeatures] at h
    subst h
    exact ⟨rfl, by simp⟩
  | f :: fs, gs, h => by
    revert h
    unfold parseFeatures
    split_ifs with he
    · intro h; exact absurd h (by simp)
    · cases hr : parseFeatures fs with
      | none => intro h; exact absurd h (by simp)
      | some rest =>
        intro h
        injection h with hg
        rcases parseFeatures_eq_some hr with ⟨h1, h2⟩
        subst h1
        refine ⟨hg.symm, ?_⟩
        intro x hx
        rcases List.mem_cons.mp hx with h3 | h3
        · subst h3; exact he
        · exact h2 x h3

theorem parseFeatures_of_all_ne : ∀ {fs : List Str}, (∀ f ∈ fs, f ≠ []) →
    parseFeatures fs = some fs
  | [], _ => rfl
  | f :: fs, h => by
    unfold parseFeatures
    rw [if_neg (h f (List.mem_cons_self f fs))]
    rw [parseFeatures_of_all_ne (fun x hx => h x (List.mem_cons_of_mem f hx))]
    rfl

theorem parseFeatures_none_iff : ∀ {fs : List Str},
    parseFeatures fs = none ↔ ∃ f ∈ fs, f = []
  | [] => by simp [parseFeatures]
  | f :: fs => by
    unfold parseFeatures
    split_ifs with he
    · simp [he]
    · cases hr : parseFeatures fs with
      | none =>
        have := parseFeatures_none_iff.mp hr
        simp only [List.exists_mem_cons_iff]
        simp [this]
      | some rest =>
        have hnot : ¬∃ x ∈ fs, x = [] := by
          rw [← parseFeatures_none_iff]
          simp [hr]
        simp only [List.exists_mem_cons_iff]
        simp [he, hnot]

theorem parseArches_asStr (a : Architecture) : parseArches a.asStr = some [a] := by
  unfold parseArches
  rw [if_neg]
  · rw [Architecture.new_asStr]
    rfl
  · rintro ⟨hh, _⟩
    exact (asStr_facts a).2.1 hh

theorem parseArches_bracket {l : List Architecture} (hne : l ≠ []) :
    parseArches ('[' :: (joinSep '|' (l.map Architecture.asStr) ++ [']'])) = some l := by
  unfold parseArches
  have hsplit : ('[' :: (joinSep '|' (l.map Architecture.asStr) ++ [']']) : Str) =
      ('[' :: joinSep '|' (l.map Architecture.asStr)) ++ [']'] := by
    simp
  have hlast : (('[' :: (joinSep '|' (l.map Architecture.asStr) ++ [']'])) : Str).getLast?
      = some ']' := by
    rw [hsplit]
    exact List.getLast?_concat _
  rw [if_pos ⟨rfl, hlast⟩]
  have hmid : ((('[' :: (joinSep '|' (l.map Architecture.asStr) ++ [']'])) : Str).drop 1).dropLast
      = joinSep '|' (l.map Architecture.asStr) := by
    simp
  rw [hmid]
  rw [split_joinSep (by simpa using hne) ?pipes]
  · exact parseArchList_map_asStr l
  case pipes =>
    intro p hp
    rcases List.mem_map.mp hp with ⟨a, _, rfl⟩
    exact (asStr_facts a).2.2.2

theorem parseArches_ne_nil {x : Str} {l : List Architecture}
    (h : parseArches x = some l) : l ≠ [] := by
  unfold parseArches at h
  split_ifs at h with hb
  · intro he
    subst he
    have hlen := parseArchList_length h
    cases hsp : split '|' ((x.drop 1).dropLast) with
    | nil => exact split_ne_nil '|' ((x.drop 1).dropLast) hsp
    | cons q qs =>
      rw [hsp] at hlen
      simp at hlen
  · cases hn : Architecture.new x with
    | none =>
      rw [hn] at h
      exact absurd h (by simp)
    | some a =>
      rw [hn] at h
      injection h with he
      simp [← he]

theorem parse_inv {s : Str} {sp : Nat} {t : Target} (h : Target.parse s sp = some t) :
    ∃ archSpec segs, split '+' s = archSpec :: segs ∧ archSpec ≠ [] ∧
      parseArches archSpec = some t.architectures ∧
      (∀ f ∈ segs, f ≠ []) ∧
      t.features = canonicalFeatures segs ∧ t.span = sp := by
  unfold Target.parse at h
  rcases hsp : split '+' s with _ | ⟨archSpec, segs⟩
  · rw [hsp] at h
    exact absurd h (by simp)
  · rw [hsp] at h
    replace h :
        (if archSpec = [] then none
         else
          match parseArches archSpec, parseFeatures segs with
          | some arches, some feats =>
            some (⟨arches, canonicalFeatures feats, sp⟩ : Target)
          | _, _ => none) = some t := h
    split_ifs at h with hempty
    rcases ha : parseArches archSpec with _ | arches <;>
      rcases hf : parseFeatures segs with _ | feats <;>
        rw [ha, hf] at h <;>
          try exact Option.noConfusion h
    injection h with he
    rcases parseFeatures_eq_some hf with ⟨hfe, hall⟩
    refine ⟨archSpec, segs, rfl, hempty, ?_, hall, ?_, ?_⟩ <;> simp [← he, ha, hfe]

theorem parse_build {s : Str} {sp : Nat} {archSpec : Str} {segs : List Str}
    {arches : List Architecture}
    (hsp : split '+' s = archSpec :: segs) (hne : archSpec ≠ [])
    (ha : parseArches archSpec = some arches) (hf : parseFeatures segs = some segs) :
    Target.parse s sp = some ⟨arches, canonicalFeatures segs, sp⟩ := by
  unfold Target.parse
  rw [hsp]
  show (if archSpec = [] then none
        else
          match parseArches archSpec, parseFeatures segs with
          | some arches, some feats =>
            some (⟨arches, canonicalFeatures feats, sp⟩ : Target)
          | _, _ => none) = some ⟨arches, canonicalFeatures segs, sp⟩
  rw [if_neg hne, ha, hf]

theorem parse_canonical_aux {archesStr : Str} {A : List Architecture} {fs : List Str}
    {sp : Nat}
    (hne : archesStr ≠ []) (hplusA : '+' ∉ archesStr)
    (ha : parseArches archesStr = some A)
    (hfs_ne : ∀ f ∈ fs, f ≠ []) (hfs_plus : ∀ f ∈ fs, '+' ∉ f)
    (hsorted : List.Sorted (· ≤ ·) fs) (hchain : List.Chain' (fun a b => a ≠ b) fs) :
    Target.parse (if fs = [] then archesStr else archesStr ++ '+' :: joinSep '+' fs) sp
      = some ⟨A, fs, sp⟩ := by
  by_cases hfs : fs = []
  · subst hfs
    rw [if_pos rfl]
    have hsp : split '+' archesStr = [archesStr] := split_sepFree hplusA
    exact parse_build hsp hne ha (parseFeatures_of_all_ne (by simp))
  · rw [if_neg hfs]
    have hsp : split '+' (archesStr ++ '+' :: joinSep '+' fs) = archesStr :: fs := by
      rw [split_append_cons hplusA, split_joinSep hfs hfs_plus]
    have hb : Target.parse (archesStr ++ '+' :: joinSep '+' fs) sp
        = some ⟨A, canonicalFeatures fs, sp⟩ :=
      parse_build hsp hne ha (parseFeatures_of_all_ne hfs_ne)
    rw [hb, canonicalFeatures_eq_self hsorted hchain]

theorem parse_roundtrip {s : Str} {sp : Nat} {t : Target}
    (h : Target.parse s sp = some t) :
    Target.parse t.targetString t.span = some t := by
  rcases parse_inv h with ⟨archSpec, segs, hsp, hne, ha, hallne, hfeat, hspan⟩
  have hAne : t.architectures ≠ [] := parseArches_ne_nil ha
  have hfsorted : List.Sorted (· ≤ ·) t.features := by
    rw [hfeat]
    exact sorted_canonicalFeatures segs
  have hfchain : List.Chain' (fun a b => a ≠ b) t.features := by
    rw [hfeat]
    exact chain_ne_canonicalFeatures segs
  have hfmem : ∀ f ∈ t.features, f ∈ segs := by
    intro f hf
    rw [hfeat] at hf
    exact mem_canonicalFeatures hf
  have hfne : ∀ f ∈ t.features, f ≠ [] := fun f hf => hallne f (hfmem f hf)
  have hfplus : ∀ f ∈ t.features, '+' ∉ f := by
    intro f hf
    refine mem_split (s := s) ?_
    rw [hsp]
    exact List.mem_cons_of_mem _ (hfmem f hf)
  by_cases hlen : 1 < t.architectures.length
  · have hts : t.targetString =
        (if t.features = [] then
          '[' :: (joinSep '|' (t.architectures.map Architecture.asStr) ++ [']'])
         else
          ('[' :: (joinSep '|' (t.architectures.map Architecture.asStr) ++ [']']))
            ++ '+' :: joinSep '+' t.features) := by
      simp only [Target.targetString, hlen, if_true]
    have hplusA : '+' ∉
        ('[' :: (joinSep '|' (t.architectures.map Architecture.asStr) ++ [']']) : Str) := by
      intro hmem
      rcases List.mem_cons.mp hmem with h1 | h1
      · exact absurd h1.symm (by decide)
      · rcases List.mem_append.mp h1 with h2 | h2
        · rcases mem_joinSep h2 with h3 | ⟨p, hp, hcp⟩
          · exact absurd h3 (by decide)
          · rcases List.mem_map.mp hp with ⟨a, _, rfl⟩
            exact (asStr_facts a).2.2.1 hcp
        · rcases List.mem_singleton.mp h2 with h3
          exact absurd h3 (by decide)
    rw [hts]
    exact parse_canonical_aux (by simp) hplusA (parseArches_bracket hAne)
      hfne hfplus hfsorted hfchain
  · have hlen1 : t.architectures.length = 1 := by
      have h0 : t.architectures.length ≠ 0 := by
        simpa [List.length_eq_zero] using hAne
      omega
    rcases List.length_eq_one.mp hlen1 with ⟨a, haeq⟩
    have hts : t.targetString =
        (if t.features = [] then a.asStr else a.asStr ++ '+' :: joinSep '+' t.features) := by
      simp [Target.targetString, haeq]
    have ha' : parseArches a.asStr = some t.architectures := by
      rw [haeq]
      exact parseArches_asStr a
    rw [hts]
    exact parse_canonical_aux (asStr_facts a).1 (asStr_facts a).2.2.1 ha'
      hfne hfplus hfsorted hfchain



/-! ### Lemmas about selection -/

theorem find_filter_eq {α : Type} (p q : α → Bool) : ∀ (l : List α),
    (l.filter p).find? q = l.find? (fun x => p x && q x)
  | [] => rfl
  | x :: xs => by
    by_cases hp : p x
    · by_cases hq : q x
      · rw [List.filter_cons_of_pos hp, List.find?_cons_of_pos _ hq,
          List.find?_cons_of_pos _ (by simp [hp, hq])]
      · rw [List.filter_cons_of_pos hp, List.find?_cons_of_neg _ (by simp [hq]),
          List.find?_cons_of_neg _ (by simp [hq]), find_filter_eq p q xs]
    · rw [List.filter_cons_of_neg hp, List.find?_cons_of_neg _ (by simp [hp]),
        find_filter_eq p q xs]

theorem select_eq_amended (specs : List Specialization) (a : Architecture) (det : Detector) :
    select specs a det = selectAmendedOrder specs a det := by
  unfold select selectCached selectAmendedOrder getFnChain guardList
  rw [find_filter_eq]
  rcases h : specs.enum.find?
      (fun p => p.2.target.hasFeaturesSpecified && guardPasses a det p.2) with _ | p <;>
    simp [h, resolveDefaultSymbol]

theorem branchWalk_eq (a : Architecture) (det : Detector) : ∀ (l : List (Nat × Specialization)),
    branchWalk a det l = (l.find? (fun p => guardPasses a det p.2)).map (fun p => p.1)
  | [] => rfl
  | p :: rest => by
    by_cases hg : guardPasses a det p.2
    · simp [branchWalk, hg, List.find?_cons]
    · simp [branchWalk, hg, List.find?_cons, branchWalk_eq a det rest]

theorem selectChain_eq_selectCached (specs : List Specialization) (a : Architecture)
    (det : Detector) : selectChain specs a det = selectCached specs a det := by
  unfold selectChain selectCached getFnChain
  rw [branchWalk_eq]

theorem chainEval_branchWalk (a : Architecture) (det : Detector) :
    ∀ (l : List (Nat × Specialization)), ChainEval a det l (branchWalk a det l)
  | [] => ChainEval.nil
  | p :: rest => by
    by_cases hg : guardPasses a det p.2
    · have : branchWalk a det (p :: rest) = some p.1 := by simp [branchWalk, hg]
      rw [this]
      exact ChainEval.hit p rest hg
    · have : branchWalk a det (p :: rest) = branchWalk a det rest := by
        simp [branchWalk, hg]
      rw [this]
      exact ChainEval.miss p rest _ (by simp [hg]) (chainEval_branchWalk a det rest)

theorem chainEval_unique {a : Architecture} {det : Detector} :
    ∀ {l : List (Nat × Specialization)} {r₁ r₂ : Option Nat},
      ChainEval a det l r₁ → ChainEval a det l r₂ → r₁ = r₂ := by
  intro l r₁ r₂ h1
  induction h1 with
  | nil => intro h2; cases h2; rfl
  | hit p rest h =>
    intro h2
    cases h2 with
    | hit _ _ _ => rfl
    | miss _ _ _ hmiss _ => rw [h] at hmiss; exact Bool.noConfusion hmiss
  | miss p rest r h hr ih =>
    intro h2
    cases h2 with
    | hit _ _ hhit => rw [h] at hhit; exact Bool.noConfusion hhit
    | miss _ _ _ _ hr2 => exact ih hr2

theorem all_congr_bool {α : Type} {f g : α → Bool} :
    ∀ {l : List α}, (∀ x ∈ l, f x = g x) → l.all f = l.all g
  | [], _ => rfl
  | x :: xs, h => by
    simp only [List.all_cons]
    rw [h x (List.mem_cons_self x xs),
      all_congr_bool (fun y hy => h y (List.mem_cons_of_mem x hy))]

theorem guardPasses_congr {det det' : Detector} (h : ∀ x f, det x f = det' x f)
    (a : Architecture) (sp : Specialization) :
    guardPasses a det sp = guardPasses a det' sp := by
  unfold guardPasses Target.featuresDetected
  rcases hf : sp.target.features with _ | ⟨f, fs⟩
  · simp
  · rw [if_neg (by simp), if_neg (by simp)]
    congr 1
    exact all_congr_bool (fun x _ => h a x)

theorem chainEval_congr {a : Architecture} {det det' : Detector}
    (h : ∀ x f, det x f = det' x f) :
    ∀ {l : List (Nat × Specialization)} {r : Option Nat},
      ChainEval a det l r → ChainEval a det' l r := by
  intro l r h1
  induction h1 with
  | nil => exact ChainEval.nil
  | hit p rest hg => exact ChainEval.hit p rest (guardPasses_congr h a p.2 ▸ hg)
  | miss p rest r hg hr ih =>
    exact ChainEval.miss p rest r (guardPasses_congr h a p.2 ▸ hg) ih

/-! ### Lemmas about the cached-dispatch transition system -/

theorem phase_finished_not_start {c : ResolvedChoice} :
    Phase.finished c ≠ Phase.start := fun h => Phase.noConfusion h

/-- Invariant of the cached call site: the slot only ever holds the selection
result, and every finished thread invoked the selection result. -/
def cacheInv (specs : List Specialization) (a : Architecture) (det : Detector)
    (s : CacheState) : Prop :=
  (∀ c, s.slot = some c → c = select specs a det) ∧
  (∀ c, Phase.finished c ∈ s.threads → c = select specs a det)

theorem cacheStep_inv {specs : List Specialization} {a : Architecture} {det : Detector}
    {s s' : CacheState} (hstep : CacheStep specs a det s s')
    (hinv : cacheInv specs a det s) : cacheInv specs a det s' := by
  rcases hinv with ⟨hslot, hfin⟩
  cases hstep with
  | spawn =>
    refine ⟨hslot, ?_⟩
    intro c hc
    rcases List.mem_append.mp hc with h1 | h1
    · exact hfin c h1
    · exact absurd (List.mem_singleton.mp h1) (fun h => Phase.noConfusion h)
  | loadSentinel i h hs =>
    refine ⟨hslot, ?_⟩
    intro c hc
    rcases List.mem_or_eq_of_mem_set hc with h1 | h1
    · exact hfin c h1
    · exact absurd h1 (fun h => Phase.noConfusion h)
  | loadResolved i c h hs =>
    refine ⟨hslot, ?_⟩
    intro c' hc
    rcases List.mem_or_eq_of_mem_set hc with h1 | h1
    · exact hfin c' h1
    · have hcc : c' = c := by injection h1
      rw [hcc]
      exact hslot c hs
  | resolveStore i h =>
    constructor
    · intro c hc
      injection hc with hc
      exact hc.symm
    · intro c hc
      rcases List.mem_or_eq_of_mem_set hc with h1 | h1
      · exact hfin c h1
      · injection h1

theorem cacheReach_inv {specs : List Specialization} {a : Architecture} {det : Detector}
    {s : CacheState} (h : CacheReach specs a det ⟨none, []⟩ s) :
    cacheInv specs a det s := by
  induction h with
  | refl =>
    constructor
    · intro c hc
      exact Option.noConfusion hc
    · intro c hc
      exact absurd hc (List.not_mem_nil _)
  | tail hr hstep ih => exact cacheStep_inv hstep ih

theorem cacheStep_stable {specs : List Specialization} {a : Architecture} {det : Detector}
    {s s' : CacheState} {c : ResolvedChoice} (hstep : CacheStep specs a det s s')
    (hc : s.slot = some c) (hw : Phase.willResolve ∉ s.threads) :
    s'.slot = some c ∧ Phase.willResolve ∉ s'.threads := by
  cases hstep with
  | spawn =>
    refine ⟨hc, ?_⟩
    intro hmem
    rcases List.mem_append.mp hmem with h1 | h1
    · exact hw h1
    · exact Phase.noConfusion (List.mem_singleton.mp h1)
  | loadSentinel i h hs =>
    rw [hc] at hs
    exact Option.noConfusion hs
  | loadResolved i c' h hs =>
    refine ⟨hc, ?_⟩
    intro hmem
    rcases List.mem_or_eq_of_mem_set hmem with h1 | h1
    · exact hw h1
    · exact Phase.noConfusion h1
  | resolveStore i h =>
    exact absurd (List.get?_mem h) hw

theorem cacheReach_stable {specs : List Specialization} {a : Architecture} {det : Detector}
    {s s' : CacheState} {c : ResolvedChoice} (hr : CacheReach specs a det s s')
    (hc : s.slot = some c) (hw : Phase.willResolve ∉ s.threads) :
    s'.slot = some c ∧ Phase.willResolve ∉ s'.threads := by
  induction hr with
  | refl => exact ⟨hc, hw⟩
  | tail hr' hstep ih => exact cacheStep_stable hstep ih.1 ih.2

/-! ### Lemmas about the emitted default-name bearers -/

theorem countP_anyArch_zero {a : Architecture} {l : List Architecture}
    {ls : List (List Architecture)} (ha : a ∈ l)
    (hd : ∀ l' ∈ ls, ∀ x ∈ l, x ∉ l') :
    (ls.map Gate.anyArch).countP (fun g => gateActive a g) = 0 := by
  rw [List.countP_eq_zero]
  intro g hg
  rcases List.mem_map.mp hg with ⟨l', hl', rfl⟩
  simpa [gateActive] using hd l' hl' a ha

theorem countP_gates_one {a : Architecture} :
    ∀ {ls : List (List Architecture)},
      ls.Pairwise (fun l₁ l₂ => ∀ x ∈ l₁, x ∉ l₂) →
      ((ls.map Gate.anyArch).countP (fun g => gateActive a g)
        + (if gateActive a (Gate.notAnyArch ls.flatten) then 1 else 0)) = 1
  | [], _ => by simp [gateActive]
  | l :: ls, hpw => by
    rcases List.pairwise_cons.mp hpw with ⟨hd, htl⟩
    by_cases ha : a ∈ l
    · rw [List.map_cons, List.countP_cons]
      rw [countP_anyArch_zero ha hd]
      have h1 : gateActive a (Gate.anyArch l) = true := by simp [gateActive, ha]
      have h2 : gateActive a (Gate.notAnyArch (l ++ ls.flatten)) = false := by
        simp [gateActive, List.mem_append, ha]
      simp [h1, h2]
    · rw [List.map_cons, List.countP_cons]
      have h1 : gateActive a (Gate.anyArch l) = false := by simp [gateActive, ha]
      have h2 : gateActive a (Gate.notAnyArch (l ++ ls.flatten))
          = gateActive a (Gate.notAnyArch ls.flatten) := by
        simp [gateActive, List.mem_append, ha]
      simp only [List.flatten_cons, h1, h2]
      simpa using countP_gates_one htl


/-! ### Characterization of parse failure -/

theorem new_none_of_head_bracket {s : Str} (h : s.head? = some '[') :
    Architecture.new s = none := by
  cases hn : Architecture.new s with
  | none => rfl
  | some a =>
    have he := Architecture.eq_asStr_of_new hn
    rw [he] at h
    exact absurd h (asStr_facts a).2.1

theorem parseArches_none_char (archSpec : Str) :
    parseArches archSpec = none ↔
      ((archSpec.head? = some '[' ∧ ¬archSpec.getLast? = some ']') ∨
       ((archSpec.head? = some '[' ∧ archSpec.getLast? = some ']') ∧
          ∃ e ∈ bracketInterior archSpec, e = []) ∨
       ∃ n ∈ archNamesOf archSpec, Architecture.new n = none) := by
  unfold parseArches archNamesOf
  by_cases hb : archSpec.head? = some '[' ∧ archSpec.getLast? = some ']'
  · rw [if_pos hb, if_pos hb]
    rw [show parseArchList (split '|' ((archSpec.drop 1).dropLast))
        = parseArchList (bracketInterior archSpec) from rfl]
    rw [parseArchList_none_iff]
    constructor
    · intro hex
      exact Or.inr (Or.inr hex)
    · rintro (⟨_, hlast⟩ | ⟨_, e, he, rfl⟩ | hex)
      · exact absurd hb.2 hlast
      · exact ⟨[], he, rfl⟩
      · exact hex
  · rw [if_neg hb, if_neg hb]
    constructor
    · intro hnone
      have hn : Architecture.new archSpec = none := by
        cases hx : Architecture.new archSpec with
        | none => rfl
        | some a => rw [hx] at hnone; exact Option.noConfusion hnone
      by_cases hh : archSpec.head? = some '['
      · exact Or.inl ⟨hh, fun hl => hb ⟨hh, hl⟩⟩
      · exact Or.inr (Or.inr ⟨archSpec, List.mem_singleton.mpr rfl, hn⟩)
    · rintro (⟨hh, _⟩ | ⟨hbb, _⟩ | ⟨n, hn, hnone⟩)
      · rw [new_none_of_head_bracket hh]
        rfl
      · exact absurd hbb hb
      · rw [List.mem_singleton.mp hn] at hnone
        rw [hnone]
        rfl

theorem parse_eq_cons {s : Str} {archSpec : Str} {segs : List Str} (sp : Nat)
    (hsp : split '+' s = archSpec :: segs) :
    Target.parse s sp =
      (if archSpec = [] then none
       else
        match parseArches archSpec, parseFeatures segs with
        | some arches, some feats =>
          some (⟨arches, canonicalFeatures feats, sp⟩ : Target)
        | _, _ => none) := by
  unfold Target.parse
  rw [hsp]

theorem specMalformed_eq_cons {s : Str} {archSpec : Str} {segs : List Str}
    (hsp : split '+' s = archSpec :: segs) :
    specMalformed s =
      (decide (archSpec = [])
        || (decide (archSpec.head? = some '[') && !decide (archSpec.getLast? = some ']'))
        || (decide (archSpec.head? = some '[' ∧ archSpec.getLast? = some ']')
            && (bracketInterior archSpec).any (fun e => decide (e = [])))
        || (archNamesOf archSpec).any (fun n => (Architecture.new n).isNone)
        || segs.any (fun f => decide (f = []))) := by
  unfold specMalformed
  rw [hsp]

theorem parse_none_iff (s : Str) (sp : Nat) :
    Target.parse s sp = none ↔ specMalformed s = true := by
  rcases hsp : split '+' s with _ | ⟨archSpec, segs⟩
  · exact absurd hsp (split_ne_nil '+' s)
  · rw [parse_eq_cons sp hsp, specMalformed_eq_cons hsp]
    by_cases hempty : archSpec = []
    · simp [hempty]
    · rw [if_neg hempty]
      have hlhs : ((match parseArches archSpec, parseFeatures segs with
          | some arches, some feats =>
            some (⟨arches, canonicalFeatures feats, sp⟩ : Target)
          | _, _ => none) = none) ↔
          (parseArches archSpec = none ∨ parseFeatures segs = none) := by
        rcases parseArches archSpec with _ | A <;>
          rcases parseFeatures segs with _ | F <;> simp
      rw [hlhs, parseArches_none_char, parseFeatures_none_iff]
      simp only [Bool.or_eq_true, Bool.and_eq_true, decide_eq_true_eq,
        List.any_eq_true, Option.isNone_iff_eq_none, Bool.not_eq_true',
        decide_eq_false_iff_not]
      constructor
      · rintro ((⟨hh, hl⟩ | h3 | h4) | hf)
        · exact Or.inl (Or.inl (Or.inl (Or.inr ⟨hh, hl⟩)))
        · exact Or.inl (Or.inl (Or.inr h3))
        · exact Or.inl (Or.inr h4)
        · exact Or.inr hf
      · rintro ((((hc | ⟨hh, hl⟩) | h3) | h4) | hf)
        · exact absurd hc hempty
        · exact Or.inl (Or.inl ⟨hh, hl⟩)
        · exact Or.inl (Or.inr (Or.inl h3))
        · exact Or.inl (Or.inr (Or.inr h4))
        · exact Or.inr hf

/-! ### Computation of the priority example -/

theorem select_priority_pair (det : Detector) :
    select [⟨⟨[.X86], [("f1".data)], 0⟩, 0⟩, ⟨⟨[.X86], [], 0⟩, 1⟩] .X86 det
      = (if det .X86 ("f1".data) then .spec 0 else .spec 1) := by
  cases h : det .X86 ("f1".data) <;>
    simp [select, selectCached, getFnChain, guardList, guardPasses,
      resolveDefaultSymbol, Target.archActive, Target.featuresDetected,
      Target.hasFeaturesSpecified, List.enum, List.enumFrom, List.filter,
      List.find?, List.all, h]


/-! ### Claim theorems -/

/-- C1, counterexample: the claim's selection rule (iterate all specializations in
declaration order, an empty-feature entry matching on architecture alone) disagrees
with the code. With the table [arch-only x86 entry, x86+f1 entry] and f1 detected,
the generated dispatcher selects the later feature-bearing entry (index 1), while
the claim's rule selects the earlier arch-only entry (index 0). -/
theorem claim_C1_counterexample :
    select [⟨⟨[.X86], [], 0⟩, 0⟩, ⟨⟨[.X86], [("f1".data)], 0⟩, 1⟩] .X86
        (fun _ _ => true) = .spec 1 ∧
    selectClaimOrder [⟨⟨[.X86], [], 0⟩, 0⟩, ⟨⟨[.X86], [("f1".data)], 0⟩, 1⟩] .X86
        (fun _ _ => true) = .spec 0 ∧
    select [⟨⟨[.X86], [], 0⟩, 0⟩, ⟨⟨[.X86], [("f1".data)], 0⟩, 1⟩] .X86
        (fun _ _ => true) ≠
      selectClaimOrder [⟨⟨[.X86], [], 0⟩, 0⟩, ⟨⟨[.X86], [("f1".data)], 0⟩, 1⟩] .X86
        (fun _ _ => true) := by
  refine ⟨by decide, by decide, by decide⟩

/-- C1 (amended): selection tries the feature-bearing specializations first, in
declaration order, returning the first whose architecture set contains the running
architecture and whose features are all detected; if none matches, the earliest
empty-feature specialization listing the architecture stands in for the default
(regardless of its declared position relative to feature-bearing entries); the
global Default is returned only when no specialization matches at all. -/
theorem claim_C1_amended (specs : List Specialization) (a : Architecture)
    (det : Detector) :
    select specs a det = selectAmendedOrder specs a det :=
  select_eq_amended specs a det

/-- C2: in the interleaved semantics of a cached call site started unresolved, the
slot only ever holds the (unique, deterministic) selection result, every finished
caller invoked exactly that result, and once the slot is resolved and all racing
resolvers have finished, no later caller ever becomes a resolver again and the
stored value never changes. -/
theorem claim_C2_cached_idempotent (specs : List Specialization) (a : Architecture)
    (det : Detector) (s : CacheState)
    (hreach : CacheReach specs a det ⟨none, []⟩ s) :
    (∀ c, s.slot = some c → c = select specs a det) ∧
    (∀ c, Phase.finished c ∈ s.threads → c = select specs a det) ∧
    (∀ c s', s.slot = some c → Phase.willResolve ∉ s.threads →
      CacheReach specs a det s s' →
      s'.slot = some c ∧ Phase.willResolve ∉ s'.threads) := by
  refine ⟨(cacheReach_inv hreach).1, (cacheReach_inv hreach).2, ?_⟩
  intro c s' hc hw hr
  exact cacheReach_stable hr hc hw

/-- Witness for C2: a concrete three-step trace (spawn, load sentinel, resolve and
store) of the empty table, whose finished caller invoked the selection result. -/
theorem claim_C2_witness :
    ResolvedChoice.defaultImpl = select [] .X86 (fun _ _ => true) := by
  have h1 : CacheStep [] .X86 (fun _ _ => true) ⟨none, []⟩ ⟨none, [Phase.start]⟩ :=
    CacheStep.spawn ⟨none, []⟩
  have h2 : CacheStep [] .X86 (fun _ _ => true) ⟨none, [Phase.start]⟩
      ⟨none, [Phase.willResolve]⟩ :=
    CacheStep.loadSentinel ⟨none, [Phase.start]⟩ 0 rfl rfl
  have h3 : CacheStep [] .X86 (fun _ _ => true) ⟨none, [Phase.willResolve]⟩
      ⟨some (select [] .X86 (fun _ _ => true)),
        [Phase.finished (select [] .X86 (fun _ _ => true))]⟩ :=
    CacheStep.resolveStore ⟨none, [Phase.willResolve]⟩ 0 rfl
  have hreach : CacheReach [] .X86 (fun _ _ => true) ⟨none, []⟩
      ⟨some ResolvedChoice.defaultImpl, [Phase.finished ResolvedChoice.defaultImpl]⟩ :=
    Relation.ReflTransGen.tail (Relation.ReflTransGen.tail
      (Relation.ReflTransGen.tail Relation.ReflTransGen.refl h1) h2) h3
  exact (claim_C2_cached_idempotent [] .X86 (fun _ _ => true) _ hreach).2.1
    ResolvedChoice.defaultImpl (List.mem_singleton.mpr rfl)

/-- C3: for every accepted target specification string, re-parsing the canonical
re-serialization of the parsed result reproduces the original parse exactly. -/
theorem claim_C3_roundtrip (s : Str) (sp : Nat) (t : Target)
    (h : Target.parse s sp = some t) :
    Target.parse t.targetString t.span = some t :=
  parse_roundtrip h

/-- Witness for C3 at a concrete accepted input. -/
theorem claim_C3_witness :
    Target.parse
        (Target.targetString ⟨[.X86, .X86_64], [("avx".data)], 5⟩) 5 =
      some ⟨[.X86, .X86_64], [("avx".data)], 5⟩ :=
  claim_C3_roundtrip (("[x86|x86_64]+avx").data) 5 _ (by decide)

/-- C4: the per-call branch chain and the cached dispatcher are
selection-equivalent on every table, architecture and detector state, and the
branch chain is generated exactly when the cached path's structural applicability
conditions (runtime dispatch enabled, not generic, not async, no impl trait, not
associated) are not all met. -/
theorem claim_C4_chain_equiv_cached :
    (∀ (specs : List Specialization) (a : Architecture) (det : Detector),
      selectChain specs a det = selectCached specs a det) ∧
    (∀ shape : SigShape,
      usesBranchChain shape = true ↔
        ¬(shape.runtimeDispatch = true ∧ shape.hasFnParams = false ∧
          shape.isAsync = false ∧ shape.hasImplTrait = false ∧
          shape.associated = false)) := by
  refine ⟨selectChain_eq_selectCached, ?_⟩
  decide

/-- Witness for C4 at a concrete table and shape. -/
theorem claim_C4_witness :
    selectChain [⟨⟨[.X86], [("f1".data)], 0⟩, 0⟩] .X86 (fun _ _ => true)
      = selectCached [⟨⟨[.X86], [("f1".data)], 0⟩, 0⟩] .X86 (fun _ _ => true) :=
  claim_C4_chain_equiv_cached.1 [⟨⟨[.X86], [("f1".data)], 0⟩, 0⟩] .X86
    (fun _ _ => true)

/-- C5: with specializations [A requires f1, B requires nothing] declared in that
order for x86, selection on x86 returns A (index 0) when f1 is detected and B
(index 1) when it is not; the global Default is never selected on x86. -/
theorem claim_C5_priority (det : Detector) :
    (det .X86 ("f1".data) = true →
      select [⟨⟨[.X86], [("f1".data)], 0⟩, 0⟩, ⟨⟨[.X86], [], 0⟩, 1⟩] .X86 det
        = .spec 0) ∧
    (det .X86 ("f1".data) = false →
      select [⟨⟨[.X86], [("f1".data)], 0⟩, 0⟩, ⟨⟨[.X86], [], 0⟩, 1⟩] .X86 det
        = .spec 1) ∧
    select [⟨⟨[.X86], [("f1".data)], 0⟩, 0⟩, ⟨⟨[.X86], [], 0⟩, 1⟩] .X86 det
      ≠ .defaultImpl := by
  refine ⟨?_, ?_, ?_⟩
  · intro h
    rw [select_priority_pair det, h]
    rfl
  · intro h
    rw [select_priority_pair det, h]
    rfl
  · rw [select_priority_pair det]
    cases det .X86 ("f1".data) <;> simp

/-- Witness for C5 under detectors that always and never report f1. -/
theorem claim_C5_witness :
    select [⟨⟨[.X86], [("f1".data)], 0⟩, 0⟩, ⟨⟨[.X86], [], 0⟩, 1⟩] .X86
        (fun _ _ => true) = .spec 0 ∧
    select [⟨⟨[.X86], [("f1".data)], 0⟩, 0⟩, ⟨⟨[.X86], [], 0⟩, 1⟩] .X86
        (fun _ _ => false) = .spec 1 :=
  ⟨(claim_C5_priority (fun _ _ => true)).1 rfl,
   (claim_C5_priority (fun _ _ => false)).2.1 rfl⟩

/-- C6: the five listed malformed inputs are rejected, and in general parsing
fails exactly when the spec's malformedness characterization holds: empty
architecture part, unterminated bracket, empty bracketed element, unknown
architecture name, or empty feature segment. -/
theorem claim_C6_malformed_rejection :
    (Target.parse (("+x86").data) 0 = none ∧
     Target.parse (("x86+").data) 0 = none ∧
     Target.parse (("[x86+avx").data) 0 = none ∧
     Target.parse (("[x86|]+avx").data) 0 = none ∧
     Target.parse (("sse4.2").data) 0 = none) ∧
    (∀ (s : Str) (sp : Nat), Target.parse s sp = none ↔ specMalformed s = true) := by
  refine ⟨⟨by decide, by decide, by decide, by decide, by decide⟩, parse_none_iff⟩

/-- Witness for C6: the characterization applied at a concrete malformed input. -/
theorem claim_C6_witness : Target.parse (("zzz").data) 0 = none :=
  (claim_C6_malformed_rejection.2 (("zzz").data) 0).mpr (by decide)

/-- C7: parsing the example yields the sorted feature list; every accepted parse
has a sorted, duplicate-free feature list; and two inputs with the same
architecture part whose feature segments are permutations of one another parse to
equal targets. -/
theorem claim_C7_canonical_features :
    (Target.parse (("x86_64+xsave+sse4.2").data) 0 =
      some ⟨[.X86_64], [("sse4.2".data), ("xsave".data)], 0⟩) ∧
    (∀ (s : Str) (sp : Nat) (t : Target), Target.parse s sp = some t →
      List.Sorted (· ≤ ·) t.features ∧ t.features.Nodup) ∧
    (∀ (s₁ s₂ : Str) (sp₁ sp₂ : Nat) (t₁ t₂ : Target) (hd : Str)
        (fs₁ fs₂ : List Str),
      Target.parse s₁ sp₁ = some t₁ → Target.parse s₂ sp₂ = some t₂ →
      split '+' s₁ = hd :: fs₁ → split '+' s₂ = hd :: fs₂ → fs₁.Perm fs₂ →
      targetEq t₁ t₂ = true) := by
  refine ⟨by decide, ?_, ?_⟩
  · intro s sp t h
    rcases parse_inv h with ⟨archSpec, segs, _, _, _, _, hfeat, _⟩
    rw [hfeat]
    exact ⟨sorted_canonicalFeatures segs, nodup_canonicalFeatures segs⟩
  · intro s₁ s₂ sp₁ sp₂ t₁ t₂ hd fs₁ fs₂ h1 h2 hs1 hs2 hperm
    rcases parse_inv h1 with ⟨a1, g1, hsp1, _, ha1, _, hf1, _⟩
    rcases parse_inv h2 with ⟨a2, g2, hsp2, _, ha2, _, hf2, _⟩
    rw [hs1] at hsp1
    rw [hs2] at hsp2
    injection hsp1 with e1a e1b
    injection hsp2 with e2a e2b
    subst e1a
    subst e1b
    subst e2a
    subst e2b
    have harch : t₁.architectures = t₂.architectures := by
      have := ha1.symm.trans ha2
      injection this
    simp [targetEq, harch, hf1, hf2, canonicalFeatures_perm hperm]

/-- Witness for C7: feature order in the input does not matter. -/
theorem claim_C7_witness :
    targetEq ⟨[.X86_64], [("sse4.2".data), ("xsave".data)], 0⟩
      ⟨[.X86_64], [("sse4.2".data), ("xsave".data)], 3⟩ = true :=
  claim_C7_canonical_features.2.2 (("x86_64+xsave+sse4.2").data)
    (("x86_64+sse4.2+xsave").data) 0 3 _ _ (("x86_64").data)
    [("xsave".data), ("sse4.2".data)] [("sse4.2".data), ("xsave".data)]
    (by decide) (by decide) (by decide) (by decide) (by decide)

/-- C8, counterexample: Target equality is not set-based on architectures. The two
inputs list the same architecture set in different orders, parse successfully, and
yet compare unequal. -/
theorem claim_C8_counterexample :
    Target.parse (("[x86|x86_64]").data) 0 = some ⟨[.X86, .X86_64], [], 0⟩ ∧
    Target.parse (("[x86_64|x86]").data) 0 = some ⟨[.X86_64, .X86], [], 0⟩ ∧
    ([Architecture.X86, .X86_64].Perm [Architecture.X86_64, .X86]) ∧
    targetEq ⟨[.X86, .X86_64], [], 0⟩ ⟨[.X86_64, .X86], [], 0⟩ = false := by
  refine ⟨by decide, by decide, by decide, by decide⟩

/-- C8 (amended): Target equality compares the architecture list exactly as
declared (order and multiplicity included) together with the canonical feature
list, and the span never influences equality. -/
theorem claim_C8_amended (t u : Target) :
    (targetEq t u = true ↔
      t.architectures = u.architectures ∧ t.features = u.features) ∧
    targetEq t u
      = targetEq ⟨t.architectures, t.features, 0⟩ ⟨u.architectures, u.features, 0⟩ := by
  refine ⟨?_, rfl⟩
  simp [targetEq]

/-- Witness for C8: equality holds across different spans. -/
theorem claim_C8_witness :
    targetEq ⟨[.X86], [], 3⟩ ⟨[.X86], [], 7⟩ = true :=
  (claim_C8_amended ⟨[.X86], [], 3⟩ ⟨[.X86], [], 7⟩).1.mpr ⟨rfl, rfl⟩

/-- C9: selection is deterministic. Any two complete runs of the dispatch chain,
even under two observationally equal detectors (two calls, two threads), produce
the same resolved choice. -/
theorem claim_C9_determinism (specs : List Specialization) (a : Architecture)
    (det det' : Detector) (c c' : ResolvedChoice)
    (hdet : ∀ x f, det x f = det' x f)
    (h1 : DispatchRun specs a det c) (h2 : DispatchRun specs a det' c') : c = c' := by
  cases h1 with
  | hit i h =>
    cases h2 with
    | hit i' h' =>
      have he := chainEval_unique (chainEval_congr hdet h) h'
      injection he with hii
      rw [hii]
    | fallback h' =>
      have he := chainEval_unique (chainEval_congr hdet h) h'
      exact Option.noConfusion he
  | fallback h =>
    cases h2 with
    | hit i' h' =>
      have he := chainEval_unique (chainEval_congr hdet h) h'
      exact Option.noConfusion he
    | fallback h' => rfl

/-- Witness for C9: two runs on the empty table agree. -/
theorem claim_C9_witness : ResolvedChoice.defaultImpl = ResolvedChoice.defaultImpl :=
  claim_C9_determinism [] .X86 (fun _ _ => true) (fun _ f => decide (f = f))
    ResolvedChoice.defaultImpl ResolvedChoice.defaultImpl
    (fun x f => by simp)
    (DispatchRun.fallback ChainEval.nil)
    (DispatchRun.fallback ChainEval.nil)

/-- C10, counterexample: with two empty-feature specializations both listing x86,
two default-named emitted functions are simultaneously active on x86, refuting
the claim that exactly one default-named function is active on each architecture
for every dispatch table. -/
theorem claim_C10_counterexample :
    ((defaultNameBearers (("f").data)
        [⟨⟨[.X86], [], 0⟩, 0⟩, ⟨⟨[.X86], [], 0⟩, 1⟩]).countP
      (fun g => gateActive .X86 g.gate)) = 2 ∧ (2 : Nat) ≠ 1 := by
  refine ⟨by decide, by decide⟩

/-- C10 (amended): empty-feature specializations are emitted under the default
symbol name gated to their architectures, the global default is gated away from
every defaulted architecture, empty-feature entries never appear among the
dispatch guards, and - provided no architecture is listed by two different
empty-feature specializations - exactly one default-named bearer is active on
each compiled architecture. -/
theorem claim_C10_amended (ident : Str) (specs : List Specialization)
    (a : Architecture) :
    (∀ t : Target, t.hasFeaturesSpecified = false →
      featureFnName ident (some t) = ident ++ ("_default_version").data) ∧
    featureFnName ident none = ident ++ ("_default_version").data ∧
    (gateActive a (Gate.notAnyArch (defaultedArches specs)) = false ↔
      a ∈ defaultedArches specs) ∧
    (∀ p ∈ guardList specs, p.2.target.hasFeaturesSpecified = true) ∧
    (((specs.filter (fun sp => !sp.target.hasFeaturesSpecified)).map
        (fun sp => sp.target.architectures)).Pairwise
        (fun l₁ l₂ => ∀ x ∈ l₁, x ∉ l₂) →
      (defaultNameBearers ident specs).countP (fun g => gateActive a g.gate) = 1) := by
  refine ⟨?_, rfl, ?_, ?_, ?_⟩
  · intro t ht
    simp [featureFnName, ht]
  · simp [gateActive]
  · intro p hp
    exact (List.mem_filter.mp hp).2
  · intro hpw
    have hone := countP_gates_one (a := a) hpw
    unfold defaultNameBearers
    rw [List.countP_append, List.countP_map]
    rw [List.countP_map] at hone
    simpa [defaultedArches, List.countP_cons, Function.comp] using hone

/-- Witness for C10 with disjoint empty-feature architectures. -/
theorem claim_C10_witness :
    (defaultNameBearers (("f").data)
        [⟨⟨[.X86], [], 0⟩, 0⟩, ⟨⟨[.Arm], [], 0⟩, 1⟩]).countP
      (fun g => gateActive .X86 g.gate) = 1 :=
  (claim_C10_amended (("f").data)
    [⟨⟨[.X86], [], 0⟩, 0⟩, ⟨⟨[.Arm], [], 0⟩, 1⟩] .X86).2.2.2.2 (by decide)

end Multiversion
